import Mathlib

/-!
# Verification of the quiz/review session engine

A shallow embedding of the session and round logic of the vocabulary-drill
application (sources: `src/components/QuizMode.tsx` and
`src/components/ReviewMode.tsx`), together with proofs of the specified
properties.

Modelling conventions:
* Strings manipulated character-wise (example sentences, fragments) are
  `List Char`; JavaScript's `slice` on such strings is `List.take`/`List.drop`.
* Each call to `Math.random()` inside a loop is abstracted by a stream
  `r : Nat → Nat` of arbitrary draws; `Math.floor(Math.random() * n)` at the
  `i`-th draw is modelled as `r i % n`, which ranges over exactly `0 .. n-1`.
* The comparator-based shuffles (`sort(() => 0.5 - Math.random())`) always
  return some permutation of their input; theorems quantify over an arbitrary
  permutation (`List.Perm`) of the deterministically computed list.
* React state setters become explicit state-record transformers; `setTimeout`
  with a pending auto-advance callback is modelled by a counter of scheduled
  timers, each of which runs `handleNext` when it fires (the source installs
  the callbacks with no cancellation token).
-/

namespace KanjiQuiz

/-- Vocabulary item, as produced by the word service (`src/unnamed/part_000`):
`{ id, kanji, hiragana, romaji, meanings, level, exampleSentence,
exampleMeaning, imageUrl?, learnedAt? }`. -/
structure Word where
  id : String
  kanji : String
  hiragana : String
  romaji : String
  meanings : List String
  level : Nat
  exampleSentence : List Char
  exampleMeaning : String
  imageUrl : Option String := none
  learnedAt : Option Nat := none
  deriving DecidableEq, Repr

/-- The three-valued feedback state `'NONE' | 'CORRECT' | 'WRONG'` used by the
typing, sentence and listening rounds. -/
inductive Feedback where
  | NONE
  | CORRECT
  | WRONG
  deriving DecidableEq, Repr

/-- Embeds `const TOTAL_ROUNDS = 10;` (identical in `QuizMode.tsx` line 13 and
`ReviewMode.tsx` line 15). -/
def TOTAL_ROUNDS : Nat := 10

/-- Embeds `handleNext` (`QuizMode.tsx` lines 100-107): given the 1-based
`currentRound`, returns the new round index together with whether the `onExit`
notification was invoked.  The source advances and sets up a new round when
`currentRound < TOTAL_ROUNDS`, otherwise it calls `onExit()`. -/
def handleNext (currentRound : Nat) : Nat × Bool :=
  if currentRound < TOTAL_ROUNDS then (currentRound + 1, false)
  else (currentRound, true)

/-- Embeds `handleNextRound` (`ReviewMode.tsx` lines 86-94), the review-mode copy of
the same advance logic. -/
def handleNextRound (currentRound : Nat) : Nat × Bool :=
  if currentRound < TOTAL_ROUNDS then (currentRound + 1, false)
  else (currentRound, true)

/-! ## Matching engine

`ReviewMode.tsx` lines 63-84 (`handleLeftClick`/`handleRightClick`) and the
identical mini-variant `QuizMode.tsx` lines 112-128
(`handleMatchLeft`/`handleMatchRight`).  The round-local state is the active
left selection (`selectedLeft`, a nullable string) and the list of matched
identifiers (`matchedPairs`). -/

/-- Matching-round state: `selectedLeft` / `matchedPairs`. -/
structure MatchState where
  selectedLeft : Option String
  matchedPairs : List String
  deriving DecidableEq, Repr

/-- JavaScript truthiness of the nullable string `selectedLeft`: `null` and the
empty string are falsy (the guard `if (!selectedLeft || ...)`). -/
def jsTruthy : Option String → Bool
  | none => false
  | some s => !s.isEmpty

/-- Embeds `handleLeftClick` (`ReviewMode.tsx` lines 63-66, `handleMatchLeft` in
`QuizMode.tsx` line 112): a matched identifier is ignored, otherwise it becomes
the active selection. -/
def handleLeftClick (st : MatchState) (id : String) : MatchState :=
  if st.matchedPairs.contains id then st
  else { st with selectedLeft := some id }

/-- Embeds `handleRightClick` (`ReviewMode.tsx` lines 68-84, `handleMatchRight` in
`QuizMode.tsx` lines 113-128): no active selection or an already-matched
identifier is a no-op; a right target equal to the active selection appends it
to `matchedPairs` and clears the selection; otherwise only a transient shake
animation plays and the selection is cleared. -/
def handleRightClick (st : MatchState) (id : String) : MatchState :=
  if !jsTruthy st.selectedLeft || st.matchedPairs.contains id then st
  else if st.selectedLeft = some id then
    { selectedLeft := none, matchedPairs := st.matchedPairs ++ [id] }
  else
    { st with selectedLeft := none }

/-- One user interaction with the matching board. -/
inductive MatchAction where
  | leftClick (id : String)
  | rightClick (id : String)
  deriving DecidableEq, Repr

/-- The identifier carried by a matching-board click. -/
def MatchAction.targetId : MatchAction → String
  | .leftClick id => id
  | .rightClick id => id

/-- Dispatch one click to the corresponding handler. -/
def matchStep (st : MatchState) : MatchAction → MatchState
  | .leftClick id => handleLeftClick st id
  | .rightClick id => handleRightClick st id

/-- Run a sequence of matching-board clicks. -/
def runMatch (st : MatchState) (acts : List MatchAction) : MatchState :=
  acts.foldl matchStep st

/-- Fresh matching-round state (`setMatchedPairs([]); setSelectedLeft(null)` in
`setupRound`). -/
def initMatchState : MatchState :=
  { selectedLeft := none, matchedPairs := [] }

/-- Embeds `isRoundComplete` (`ReviewMode.tsx` lines 96-98):
`shuffledLeft.length > 0 && matchedPairs.length === shuffledLeft.length`. -/
def isRoundComplete (shuffledLeft : List Word) (matchedPairs : List String) : Bool :=
  decide (0 < shuffledLeft.length) && decide (matchedPairs.length = shuffledLeft.length)

/-! ## Typing engine (`QuizMode.tsx` lines 131-139) -/

/-- JavaScript `String.prototype.trim` on the character list of the response:
drop whitespace from both ends. -/
def jsTrim (s : List Char) : List Char :=
  ((s.dropWhile Char.isWhitespace).reverse.dropWhile Char.isWhitespace).reverse

/-- Result of one `checkTyping` call: the feedback that was set and whether a
`setTimeout(handleNext, 1500)` auto-advance was scheduled. -/
structure TypingState where
  typingFeedback : Feedback
  advanceScheduled : Bool
  deriving DecidableEq, Repr

/-- Embeds `checkTyping` (`QuizMode.tsx` lines 131-139): compare the trimmed input
with `currentWord.hiragana`; on success set `CORRECT` and schedule the
auto-advance, on failure set `WRONG` (and nothing is scheduled). -/
def checkTyping (hiragana : String) (typingInput : String) : TypingState :=
  if jsTrim typingInput.data = hiragana.data then
    { typingFeedback := .CORRECT, advanceScheduled := true }
  else
    { typingFeedback := .WRONG, advanceScheduled := false }

/-- The hint rendered under the input (`QuizMode.tsx` line 238): the canonical
reading is revealed exactly when the feedback is `WRONG`. -/
def typingHint (hiragana : String) (st : TypingState) : Option String :=
  if st.typingFeedback = .WRONG then some hiragana else none

/-! ## Sentence-reconstruction engine (`QuizMode.tsx` lines 75-89, 153-163) -/

/-- Scan for the first `]` that is not preceded by a newline; on success return
the remainder after it.  This is the search performed by the lazy group `.*?\]`
of the replace regex (`.` does not match a newline). -/
def dropToRB : List Char → Option (List Char)
  | [] => none
  | ']' :: rest => some rest
  | '\n' :: _ => none
  | _ :: rest => dropToRB rest

/-- Fuelled worker for `exampleSentence.replace(/\[.*?\]/g, '')`: at each `[`
that is followed by a `]` (with no intervening newline) the bracketed span is
deleted and scanning resumes after it; a `[` with no closing `]` is kept
verbatim, as the regex finds no match there.  The fuel only bounds the
recursion and is never exhausted when it starts at the string length. -/
def stripFuel : Nat → List Char → List Char
  | 0, s => s
  | _ + 1, [] => []
  | fuel + 1, c :: rest =>
    if c = '[' then
      match dropToRB rest with
      | some rest2 => stripFuel fuel rest2
      | none => c :: stripFuel fuel rest
    else c :: stripFuel fuel rest

/-- Embeds `sentence.replace(/\[.*?\]/g, '')` — strip every bracketed reading
annotation (`QuizMode.tsx` lines 77 and 156). -/
def stripBrackets (s : List Char) : List Char :=
  stripFuel s.length s

/-- Fuelled worker for the chunking loop of `setupRound` (`QuizMode.tsx` lines
81-87): while characters remain, draw `len = Math.floor(Math.random()*3) + 2`
(i.e. `r i % 3 + 2`, between 2 and 4), push `remaining.slice(0, len)` and
continue with `remaining.slice(len)`.  Each iteration consumes at least one
character, so fuel equal to the string length is never exhausted. -/
def chunkifyFuel (r : Nat → Nat) : Nat → Nat → List Char → List (List Char)
  | 0, _, _ => []
  | fuel + 1, i, s =>
    if s.isEmpty then []
    else
      let len := r i % 3 + 2
      s.take len :: chunkifyFuel r fuel (i + 1) (s.drop len)

/-- The complete fragment list produced for a stripped sentence, in creation
order (the order of the `id` fields the source assigns before shuffling). -/
def chunkify (r : Nat → Nat) (s : List Char) : List (List Char) :=
  chunkifyFuel r s.length 0 s

/-- Embeds `checkSentence` (`QuizMode.tsx` lines 153-163): join the answer fragments,
compare against the stripped example sentence; `CORRECT` schedules the
auto-advance, `WRONG` does not. -/
def checkSentence (userSentence : List (List Char)) (exampleSentence : List Char) :
    Feedback × Bool :=
  let attempt := userSentence.flatten
  let target := stripBrackets exampleSentence
  if attempt = target then (.CORRECT, true) else (.WRONG, false)

/-! ## Listening engine (`QuizMode.tsx` lines 90-97, 166-175, 297-313) -/

/-- Embeds `words.filter(w => w.id !== randomWord.id)` — the distractor pool for a
listening round (`QuizMode.tsx` line 92). -/
def listeningWrongOptions (words : List Word) (targetId : String) : List Word :=
  words.filter (fun w => w.id != targetId)

/-- Listening-round state: last selected option, feedback, and whether the
auto-advance has been scheduled. -/
structure ListeningState where
  selectedOption : Option String
  listeningFeedback : Feedback
  advanceScheduled : Bool
  deriving DecidableEq, Repr

/-- Embeds `checkListening` (`QuizMode.tsx` lines 166-175): record the selection; if
it is the target's id set `CORRECT` and schedule `handleNext`, else set
`WRONG`. -/
def checkListening (targetId : String) (st : ListeningState) (selectedId : String) :
    ListeningState :=
  if selectedId = targetId then
    { selectedOption := some selectedId, listeningFeedback := .CORRECT,
      advanceScheduled := true }
  else
    { selectedOption := some selectedId, listeningFeedback := .WRONG,
      advanceScheduled := st.advanceScheduled }

/-- One click on an option button: the buttons carry
`disabled={listeningFeedback === 'CORRECT'}` (`QuizMode.tsx` line 302), so a
click after a correct answer does nothing; otherwise `checkListening` runs. -/
def listenClick (targetId : String) (st : ListeningState) (selectedId : String) :
    ListeningState :=
  if st.listeningFeedback = .CORRECT then st
  else checkListening targetId st selectedId

/-! ## Session-start guards -/

/-- What the component renders at session start. -/
inductive Screen where
  | insufficientPool
  | session
  deriving DecidableEq, Repr

/-- Guard of `QuizMode.tsx` lines 178-180: `if (words.length < 4)` render the
insufficient-pool notice instead of any round. -/
def quizScreen (words : List Word) : Screen :=
  if words.length < 4 then .insufficientPool else .session

/-- Guard of `ReviewMode.tsx` lines 100-108: `if (words.length < 1)` render the
no-words notice instead of any round. -/
def reviewScreen (words : List Word) : Screen :=
  if words.length < 1 then .insufficientPool else .session

/-! ## Review-round word sampler (`ReviewMode.tsx` lines 25-56) -/

/-- Worker for the sampling loop of `setupRound`: five iterations; if the pool
is empty it is refilled with the whole word list (`pool.push(...words)` on an
empty array); a random index is drawn (`r i % pool.length`), the word at that
index is appended to the round and removed from the pool (`pool.splice`).  The
`none` branch of the lookup is unreachable whenever `words` is non-empty. -/
def sampleGo (words : List Word) (r : Nat → Nat) : Nat → Nat → List Word → List Word
  | 0, _, _ => []
  | k + 1, i, pool =>
    let pool1 := if pool.isEmpty then words else pool
    let idx := r i % pool1.length
    if h : idx < pool1.length then
      pool1[idx] :: sampleGo words r k (i + 1) (pool1.eraseIdx idx)
    else []

/-- The five words drawn for a review round (`roundWords` in `setupRound`),
starting from a fresh copy of the learned-word list. -/
def setupRoundWords (words : List Word) (r : Nat → Nat) : List Word :=
  sampleGo words r 5 0 words

/-! ## Timers (`setTimeout(handleNext, ...)` in `QuizMode.tsx` lines 120, 135,
159, 171)

The source schedules the auto-advance with a bare `setTimeout` and never stores
or clears the timer id; no round/session generation token exists.  A fired
timer therefore always runs `handleNext` against whatever the current state is.
The session model below counts the scheduled, not-yet-fired callbacks. -/

/-- Quiz session state including the scheduled auto-advance callbacks:
`currentRound` (1-based), the number of times `onExit` has been invoked, and
the number of pending `setTimeout(handleNext, _)` callbacks. -/
structure QuizSession where
  currentRound : Nat
  exitCount : Nat
  pendingTimers : Nat
  deriving DecidableEq, Repr

/-- The body of `handleNext` acting on the session record. -/
def sessionAdvance (s : QuizSession) : QuizSession :=
  if s.currentRound < TOTAL_ROUNDS then { s with currentRound := s.currentRound + 1 }
  else { s with exitCount := s.exitCount + 1 }

/-- Embeds `checkTyping` at session level: a correct submission schedules one more
`setTimeout(handleNext, 1500)`; the input stays enabled, so nothing stops a
second submission of the same correct answer. -/
def checkTypingTimed (hiragana typingInput : String) (s : QuizSession) : QuizSession :=
  if jsTrim typingInput.data = hiragana.data then
    { s with pendingTimers := s.pendingTimers + 1 }
  else s

/-- The user abandons the session (the `나가기` button calls `onExit`
directly); pending timers are not cleared because the source never calls
`clearTimeout`. -/
def abandonSession (s : QuizSession) : QuizSession :=
  { s with exitCount := s.exitCount + 1 }

/-- One scheduled timer elapses: since the source installed the callback with
no cancellation or generation token, it runs `handleNext` unconditionally. -/
def fireTimer (s : QuizSession) : QuizSession :=
  if s.pendingTimers = 0 then s
  else sessionAdvance { s with pendingTimers := s.pendingTimers - 1 }

/-! ## Concrete data used by the witnesses -/

/-- A concrete vocabulary item with the given identifier, logographic form and
reading. -/
def mkWord (i k h : String) : Word :=
  { id := i, kanji := k, hiragana := h, romaji := "", meanings := [],
    level := 5, exampleSentence := [], exampleMeaning := "" }

/-- Five concrete words with pairwise-distinct identifiers. -/
def mkRound5 : List Word :=
  [mkWord "w1" "一" "いち", mkWord "w2" "二" "に", mkWord "w3" "三" "さん",
   mkWord "w4" "四" "し", mkWord "w5" "五" "ご"]

/-- A click sequence matching all five pairs of `mkRound5` in order. -/
def mkActs5 : List MatchAction :=
  [.leftClick "w1", .rightClick "w1", .leftClick "w2", .rightClick "w2",
   .leftClick "w3", .rightClick "w3", .leftClick "w4", .rightClick "w4",
   .leftClick "w5", .rightClick "w5"]

/-- A concrete 4-word pool for the listening witness. -/
def witWords4 : List Word := mkRound5.take 4

/-- The listening target drawn from `witWords4`. -/
def witTarget : Word := mkWord "w1" "一" "いち"

/-- The distractor pool of `witWords4` for `witTarget` (identity shuffle). -/
def witWrong : List Word := listeningWrongOptions witWords4 witTarget.id

/-- The four presented options (identity shuffle). -/
def witOpts : List Word := witTarget :: witWrong.take 3

/-! ## Invariant of the matching engine -/

/-- Invariant of a matching round whose buttons carry the identifiers `ids`:
the matched list has no duplicates and only contains identifiers of the
round. -/
def MatchInv (ids : List String) (st : MatchState) : Prop :=
  st.matchedPairs.Nodup ∧ ∀ x ∈ st.matchedPairs, x ∈ ids

theorem matchStep_matched_append (st : MatchState) (a : MatchAction) :
    ∃ t, (matchStep st a).matchedPairs = st.matchedPairs ++ t := by
  cases a with
  | leftClick id =>
    refine ⟨[], ?_⟩
    simp only [matchStep, handleLeftClick, List.append_nil]
    split <;> rfl
  | rightClick id =>
    simp only [matchStep, handleRightClick]
    split
    · exact ⟨[], by simp⟩
    · split
      · exact ⟨[id], rfl⟩
      · exact ⟨[], by simp⟩

theorem runMatch_matched_append (acts : List MatchAction) (st : MatchState) :
    ∃ t, (runMatch st acts).matchedPairs = st.matchedPairs ++ t := by
  induction acts generalizing st with
  | nil => exact ⟨[], by simp [runMatch]⟩
  | cons a as ih =>
    obtain ⟨t₁, h₁⟩ := matchStep_matched_append st a
    obtain ⟨t₂, h₂⟩ := ih (matchStep st a)
    refine ⟨t₁ ++ t₂, ?_⟩
    have : runMatch st (a :: as) = runMatch (matchStep st a) as := by
      simp [runMatch]
    rw [this, h₂, h₁, List.append_assoc]

theorem matchStep_inv {ids : List String} {st : MatchState} {a : MatchAction}
    (ha : a.targetId ∈ ids) (h : MatchInv ids st) : MatchInv ids (matchStep st a) := by
  obtain ⟨hnd, hsub⟩ := h
  cases a with
  | leftClick id =>
    simp only [matchStep, handleLeftClick]
    split
    · exact ⟨hnd, hsub⟩
    · exact ⟨hnd, hsub⟩
  | rightClick id =>
    simp only [matchStep, handleRightClick]
    split
    · exact ⟨hnd, hsub⟩
    · rename_i hguard
      have hid : id ∉ st.matchedPairs := by
        intro hmem
        exact hguard (by simp [List.contains, List.elem_eq_mem, hmem])
      split
      · constructor
        · exact ((List.perm_append_singleton id st.matchedPairs).nodup_iff).mpr
            (List.nodup_cons.mpr ⟨hid, hnd⟩)
        · intro x hx
          rcases List.mem_append.mp hx with hx | hx
          · exact hsub x hx
          · have hx' : x = id := by simpa using hx
            subst hx'
            simpa [MatchAction.targetId] using ha
      · exact ⟨hnd, hsub⟩

theorem runMatch_inv {ids : List String} {acts : List MatchAction} {st : MatchState}
    (hacts : ∀ a ∈ acts, a.targetId ∈ ids) (h : MatchInv ids st) :
    MatchInv ids (runMatch st acts) := by
  induction acts generalizing st with
  | nil => simpa [runMatch] using h
  | cons a as ih =>
    have : runMatch st (a :: as) = runMatch (matchStep st a) as := by
      simp [runMatch]
    rw [this]
    exact ih (fun b hb => hacts b (List.mem_cons_of_mem a hb))
      (matchStep_inv (hacts a (List.mem_cons_self a as)) h)

theorem MatchInv.matched_subperm {ids : List String} {st : MatchState}
    (h : MatchInv ids st) : List.Subperm st.matchedPairs ids :=
  List.subperm_of_subset h.1 (fun _ hx => h.2 _ hx)

theorem initMatchState_inv (ids : List String) : MatchInv ids initMatchState :=
  ⟨List.nodup_nil, by intro x hx; simp [initMatchState] at hx⟩

/-- C1: completing a round advances the 1-based round index by exactly 1 while
it is below `TOTAL_ROUNDS` (= 10) and does not invoke `onExit`; `onExit` is
invoked exactly when the index is not below the total — for a reachable index
(between 1 and 10), exactly when it equals the total — and the index never
exceeds the total.  `ReviewMode`'s `handleNextRound` is the same function. -/
theorem session_round_advance (r : Nat) :
    (r < TOTAL_ROUNDS → handleNext r = (r + 1, false)) ∧
    ((handleNext r).2 = true ↔ TOTAL_ROUNDS ≤ r) ∧
    (1 ≤ r → r ≤ TOTAL_ROUNDS → ((handleNext r).2 = true ↔ r = TOTAL_ROUNDS)) ∧
    (r ≤ TOTAL_ROUNDS → (handleNext r).1 ≤ TOTAL_ROUNDS) ∧
    handleNextRound r = handleNext r := by
  refine ⟨?_, ?_, ?_, ?_, rfl⟩ <;>
    simp only [handleNext, TOTAL_ROUNDS] <;> split <;> simp <;> omega

/-- Witness for C1 at the concrete indices 9 and 10. -/
theorem session_round_advance_witness :
    (9 < TOTAL_ROUNDS ∧ handleNext 9 = (10, false)) ∧
    (1 ≤ 10 ∧ 10 ≤ TOTAL_ROUNDS ∧ ((handleNext 10).2 = true ↔ 10 = TOTAL_ROUNDS)) :=
  ⟨⟨by decide, (session_round_advance 9).1 (by decide)⟩,
   ⟨by decide, by decide, (session_round_advance 10).2.2.1 (by decide) (by decide)⟩⟩

/-- C2: over any sequence of clicks on a matching board whose buttons carry the
identifiers `ids`, the matched list only grows (the new value is the old value
with a suffix appended), its size never exceeds the number of pairs, and the
listed degenerate selections are exact no-ops: clicking an already-matched
identifier on either side, or a right target with no active left selection,
leaves the state unchanged. -/
theorem matching_engine_invariants (ids : List String) (acts : List MatchAction)
    (st : MatchState) (hacts : ∀ a ∈ acts, a.targetId ∈ ids) :
    (∃ t, (runMatch st acts).matchedPairs = st.matchedPairs ++ t) ∧
    (runMatch initMatchState acts).matchedPairs.length ≤ ids.length ∧
    (∀ id ∈ st.matchedPairs, handleLeftClick st id = st ∧ handleRightClick st id = st) ∧
    (st.selectedLeft = none → ∀ id, handleRightClick st id = st) := by
  refine ⟨runMatch_matched_append acts st, ?_, ?_, ?_⟩
  · exact ((runMatch_inv hacts (initMatchState_inv ids)).matched_subperm).length_le
  · intro id hid
    constructor
    · simp [handleLeftClick, List.contains, List.elem_eq_mem, hid]
    · simp [handleRightClick, List.contains, List.elem_eq_mem, hid]
  · intro hsel id
    simp [handleRightClick, hsel, jsTruthy]

/-- Witness for C2: a concrete two-pair round with one completed match. -/
theorem matching_engine_invariants_witness :
    (∀ a ∈ ([.leftClick "a", .rightClick "a", .leftClick "b"] : List MatchAction),
        a.targetId ∈ ["a", "b"]) ∧
    ((∃ t, (runMatch ⟨some "b", ["a"]⟩
        [.leftClick "a", .rightClick "a", .leftClick "b"]).matchedPairs = ["a"] ++ t) ∧
      (runMatch initMatchState
        [.leftClick "a", .rightClick "a", .leftClick "b"]).matchedPairs.length ≤
          (["a", "b"] : List String).length ∧
      (∀ id ∈ (["a"] : List String),
        handleLeftClick ⟨some "b", ["a"]⟩ id = ⟨some "b", ["a"]⟩ ∧
        handleRightClick ⟨some "b", ["a"]⟩ id = ⟨some "b", ["a"]⟩) ∧
      ((⟨some "b", ["a"]⟩ : MatchState).selectedLeft = none →
        ∀ id, handleRightClick ⟨some "b", ["a"]⟩ id = ⟨some "b", ["a"]⟩)) :=
  ⟨by decide,
   matching_engine_invariants ["a", "b"] [.leftClick "a", .rightClick "a", .leftClick "b"]
     ⟨some "b", ["a"]⟩ (by decide)⟩

/-- C10: in a review round built from `roundWords` (5 sampled slots, possibly
with repeated identifiers), every identifier enters `matchedPairs` at most once
(the matched list stays duplicate-free), and `isRoundComplete` — matched count
equal to the number of left slots — can become true only when the 5 sampled
words have pairwise-distinct identifiers. -/
theorem review_completion_needs_distinct (roundWords shuffledLeft : List Word)
    (acts : List MatchAction) (hsl : shuffledLeft.Perm roundWords)
    (_hlen : roundWords.length = 5)
    (hacts : ∀ a ∈ acts, a.targetId ∈ roundWords.map Word.id) :
    (runMatch initMatchState acts).matchedPairs.Nodup ∧
    (isRoundComplete shuffledLeft (runMatch initMatchState acts).matchedPairs = true →
      (roundWords.map Word.id).Nodup) := by
  have hinv : MatchInv (roundWords.map Word.id) (runMatch initMatchState acts) :=
    runMatch_inv hacts (initMatchState_inv _)
  refine ⟨hinv.1, ?_⟩
  intro hcomp
  have hcomp' : 0 < shuffledLeft.length ∧
      (runMatch initMatchState acts).matchedPairs.length = shuffledLeft.length := by
    simpa [isRoundComplete] using hcomp
  have hmp := hcomp'.2
  have hlen' : shuffledLeft.length = roundWords.length := hsl.length_eq
  have hperm : (runMatch initMatchState acts).matchedPairs.Perm (roundWords.map Word.id) :=
    hinv.matched_subperm.perm_of_length_le (by simp [hmp, hlen'])
  exact hperm.nodup_iff.mp hinv.1

/-- Witness for C10: a 5-slot round whose clicks complete all five matches. -/
theorem review_completion_needs_distinct_witness :
    ((mkRound5.reverse).Perm mkRound5 ∧ mkRound5.length = 5 ∧
      (∀ a ∈ mkActs5, a.targetId ∈ mkRound5.map Word.id)) ∧
    ((runMatch initMatchState mkActs5).matchedPairs.Nodup ∧
      (isRoundComplete mkRound5.reverse (runMatch initMatchState mkActs5).matchedPairs = true →
        (mkRound5.map Word.id).Nodup)) :=
  ⟨⟨List.reverse_perm mkRound5, by decide, by decide⟩,
   review_completion_needs_distinct mkRound5 mkRound5.reverse mkActs5
     (List.reverse_perm mkRound5) (by decide) (by decide)⟩

/-! ## Typing-engine theorems -/

/-- C3: `checkTyping` sets `CORRECT` and schedules the auto-advance exactly
when the trimmed response equals the canonical reading; otherwise it sets
`WRONG`, schedules nothing (the round state is otherwise untouched and a new
attempt can always be submitted), and the rendered hint reveals the canonical
reading. -/
theorem typing_validation (hiragana typingInput : String) :
    ((checkTyping hiragana typingInput).typingFeedback = .CORRECT ↔
      jsTrim typingInput.data = hiragana.data) ∧
    ((checkTyping hiragana typingInput).advanceScheduled = true ↔
      jsTrim typingInput.data = hiragana.data) ∧
    (jsTrim typingInput.data ≠ hiragana.data →
      checkTyping hiragana typingInput =
        { typingFeedback := .WRONG, advanceScheduled := false } ∧
      typingHint hiragana (checkTyping hiragana typingInput) = some hiragana) := by
  unfold checkTyping typingHint
  by_cases h : jsTrim typingInput.data = hiragana.data <;> simp [h]

/-- Witness for C3 at the spec's own examples: `" わたし "` (extra whitespace)
validates against reading `"わたし"`, while `"ワタシ"` (katakana) does not. -/
theorem typing_validation_witness :
    (checkTyping "わたし" " わたし ").typingFeedback = .CORRECT ∧
    jsTrim ("ワタシ").data ≠ ("わたし").data ∧
    checkTyping "わたし" "ワタシ" =
      { typingFeedback := .WRONG, advanceScheduled := false } ∧
    typingHint "わたし" (checkTyping "わたし" "ワタシ") = some "わたし" :=
  ⟨(typing_validation "わたし" " わたし ").1.mpr (by decide), by decide,
   ((typing_validation "わたし" "ワタシ").2.2 (by decide)).1,
   ((typing_validation "わたし" "ワタシ").2.2 (by decide)).2⟩

/-! ## Sentence-engine lemmas -/

theorem chunkifyFuel_nil (r : Nat → Nat) (fuel i : Nat) :
    chunkifyFuel r fuel i [] = [] := by
  cases fuel <;> simp [chunkifyFuel]

theorem chunkifyFuel_flatten (r : Nat → Nat) :
    ∀ (fuel i : Nat) (s : List Char), s.length ≤ fuel →
      (chunkifyFuel r fuel i s).flatten = s := by
  intro fuel
  induction fuel with
  | zero =>
    intro i s hs
    have hnil : s = [] := List.length_eq_zero.mp (Nat.le_zero.mp hs)
    simp [chunkifyFuel, hnil]
  | succ fuel ih =>
    intro i s hs
    by_cases h : s.isEmpty
    · have hnil : s = [] := by simpa [List.isEmpty_iff] using h
      simp [chunkifyFuel, hnil]
    · have hne : s ≠ [] := by simpa [List.isEmpty_iff] using h
      have hpos : 0 < s.length := List.length_pos.mpr hne
      have hdrop : (s.drop (r i % 3 + 2)).length ≤ fuel := by
        simp only [List.length_drop]
        omega
      simp only [chunkifyFuel, h, Bool.false_eq_true, if_false, List.flatten_cons]
      rw [ih (i + 1) _ hdrop, List.take_append_drop]

theorem chunkifyFuel_frag_bounds (r : Nat → Nat) :
    ∀ (fuel i : Nat) (s : List Char),
      ∀ frag ∈ chunkifyFuel r fuel i s, 1 ≤ frag.length ∧ frag.length ≤ 4 := by
  intro fuel
  induction fuel with
  | zero => intro i s frag hfrag; simp [chunkifyFuel] at hfrag
  | succ fuel ih =>
    intro i s frag hfrag
    by_cases h : s.isEmpty
    · simp [chunkifyFuel, h] at hfrag
    · have hne : s ≠ [] := by simpa [List.isEmpty_iff] using h
      have hpos : 0 < s.length := List.length_pos.mpr hne
      have hmod : r i % 3 < 3 := Nat.mod_lt _ (by omega)
      simp only [chunkifyFuel, h, Bool.false_eq_true, if_false, List.mem_cons] at hfrag
      rcases hfrag with rfl | hfrag
      · constructor <;> simp [List.length_take] <;> omega
      · exact ih (i + 1) _ frag hfrag

theorem chunkifyFuel_dropLast (r : Nat → Nat) :
    ∀ (fuel i : Nat) (s : List Char),
      ∀ frag ∈ (chunkifyFuel r fuel i s).dropLast, 2 ≤ frag.length := by
  intro fuel
  induction fuel with
  | zero => intro i s frag hfrag; simp [chunkifyFuel] at hfrag
  | succ fuel ih =>
    intro i s frag hfrag
    by_cases h : s.isEmpty
    · simp [chunkifyFuel, h] at hfrag
    · have hne : s ≠ [] := by simpa [List.isEmpty_iff] using h
      have hpos : 0 < s.length := List.length_pos.mpr hne
      simp only [chunkifyFuel, h, Bool.false_eq_true, if_false] at hfrag
      by_cases hrest : chunkifyFuel r fuel (i + 1) (s.drop (r i % 3 + 2)) = []
      · rw [hrest] at hfrag
        simp at hfrag
      · rw [List.dropLast_cons_of_ne_nil hrest, List.mem_cons] at hfrag
        rcases hfrag with rfl | hfrag
        · have hdne : s.drop (r i % 3 + 2) ≠ [] := by
            intro hd
            exact hrest (by rw [hd]; exact chunkifyFuel_nil r fuel (i + 1))
          have hlen : r i % 3 + 2 < s.length := by
            by_contra hge
            exact hdne (List.drop_eq_nil_of_le (by omega))
          simp [List.length_take]
          omega
        · exact ih (i + 1) _ frag hfrag

theorem stripFuel_no_bracket :
    ∀ (fuel : Nat) (s : List Char), '[' ∉ s → stripFuel fuel s = s := by
  intro fuel
  induction fuel with
  | zero => intro s _; rfl
  | succ fuel ih =>
    intro s hs
    cases s with
    | nil => rfl
    | cons c rest =>
      have hc : c ≠ '[' := fun h => hs (h ▸ List.mem_cons_self c rest)
      have hrest : '[' ∉ rest := fun h => hs (List.mem_cons_of_mem c h)
      simp only [stripFuel, hc, if_false]
      rw [ih rest hrest]

/-- C4: assembling all of the round's fragments in creation order always
reproduces the stripped sentence, so `checkSentence` answers `CORRECT` (and
schedules the auto-advance) — for every sentence and every sequence of random
fragment lengths; any answer whose concatenation differs from the stripped
sentence answers `WRONG` with no advance. -/
theorem sentence_reconstruction (r : Nat → Nat) (exampleSentence : List Char)
    (answer : List (List Char)) :
    checkSentence (chunkify r (stripBrackets exampleSentence)) exampleSentence =
      (.CORRECT, true) ∧
    (answer.flatten ≠ stripBrackets exampleSentence →
      checkSentence answer exampleSentence = (.WRONG, false)) := by
  constructor
  · have h := chunkifyFuel_flatten r (stripBrackets exampleSentence).length 0
      (stripBrackets exampleSentence) le_rfl
    simp [checkSentence, chunkify, h]
  · intro hne
    simp [checkSentence, hne]

/-- Witness for C4 on a concrete annotated sentence and the empty answer. -/
theorem sentence_reconstruction_witness :
    (([] : List (List Char)).flatten ≠
      stripBrackets ("私[わたし]は学生[がくせい]です").data) ∧
    checkSentence
      (chunkify (fun k => k) (stripBrackets ("私[わたし]は学生[がくせい]です").data))
      ("私[わたし]は学生[がくせい]です").data = (.CORRECT, true) ∧
    checkSentence [] ("私[わたし]は学生[がくせい]です").data = (.WRONG, false) :=
  ⟨by decide, (sentence_reconstruction (fun k => k) ("私[わたし]は学生[がくせい]です").data []).1,
   (sentence_reconstruction (fun k => k) ("私[わたし]は学生[がくせい]です").data []).2
     (by decide)⟩

/-- Counterexample to C8 as stated: on the bracket-free sentence `"abc"` with
first random length 2, the produced fragments are `["ab", "c"]`, and the final
fragment has length 1, outside the claimed range `[2, 4]`. -/
theorem fragment_length_cex :
    ¬ (∀ frag ∈ chunkify (fun _ => 0) (stripBrackets ('a' :: 'b' :: 'c' :: [])),
        2 ≤ frag.length ∧ frag.length ≤ 4) := by decide

/-- C8 (amended): the engine partitions the bracket-stripped sentence into
contiguous fragments (their concatenation restores it) whose requested lengths
are pseudo-random in `[2,4]`; every fragment except possibly the final one has
length between 2 and 4, and the final fragment may be shorter (but never
empty); stripping is a no-op on text containing no `[`. -/
theorem fragment_partition_amended (r : Nat → Nat) (s : List Char) :
    (chunkify r (stripBrackets s)).flatten = stripBrackets s ∧
    (∀ frag ∈ chunkify r (stripBrackets s), 1 ≤ frag.length ∧ frag.length ≤ 4) ∧
    (∀ frag ∈ (chunkify r (stripBrackets s)).dropLast, 2 ≤ frag.length) ∧
    ('[' ∉ s → stripBrackets s = s) :=
  ⟨chunkifyFuel_flatten r _ 0 _ le_rfl,
   chunkifyFuel_frag_bounds r _ 0 _,
   chunkifyFuel_dropLast r _ 0 _,
   fun h => stripFuel_no_bracket _ _ h⟩

/-- Witness for C8 (amended) on the bracket-free sentence `"abc"`. -/
theorem fragment_partition_amended_witness :
    ('[' ∉ ('a' :: 'b' :: 'c' :: [])) ∧
    stripBrackets ('a' :: 'b' :: 'c' :: []) = 'a' :: 'b' :: 'c' :: [] :=
  ⟨by decide, (fragment_partition_amended (fun _ => 0) ('a' :: 'b' :: 'c' :: [])).2.2.2
    (by decide)⟩

/-! ## Timer theorems -/

/-- C9 is violated by the code: the auto-advance callbacks are installed with a
bare `setTimeout` and no generation token or `clearTimeout`, so a stale
callback does mutate session state.  Concretely: in round 1 the typing input
stays enabled after a correct answer, so submitting the same correct answer
twice schedules two `handleNext` timers, and after both fire the session sits
in round 3 — one completed round advanced the index by 2 (the second firing
acted on a round it was not bound to).  And with a correct answer in round 10,
abandoning the session and then letting the stale timer fire invokes the exit
notification a second time, after abandonment. -/
theorem stale_timer_not_suppressed :
    (fireTimer (fireTimer (checkTypingTimed "わたし" "わたし"
        (checkTypingTimed "わたし" "わたし" ⟨1, 0, 0⟩)))).currentRound = 3 ∧
    (fireTimer (abandonSession (checkTypingTimed "わたし" "わたし"
        ⟨TOTAL_ROUNDS, 0, 0⟩))).exitCount = 2 := by decide

/-! ## Sampler lemmas -/

theorem perm_getElem_cons_eraseIdx {α : Type _} (l : List α) (i : Nat) (h : i < l.length) :
    l.Perm (l[i] :: l.eraseIdx i) := by
  conv_lhs => rw [← List.take_append_drop i l, ← List.getElem_cons_drop l i h]
  rw [List.eraseIdx_eq_take_drop_succ]
  exact List.perm_middle

theorem sampleGo_length (words : List Word) (r : Nat → Nat) (hne : words ≠ []) :
    ∀ (k i : Nat) (pool : List Word), (sampleGo words r k i pool).length = k := by
  intro k
  induction k with
  | zero => intro i pool; rfl
  | succ k ih =>
    intro i pool
    have hpool1 : (if pool.isEmpty then words else pool) ≠ [] := by
      split
      · exact hne
      · rename_i h
        simpa [List.isEmpty_iff] using h
    have hlt : r i % (if pool.isEmpty then words else pool).length <
        (if pool.isEmpty then words else pool).length :=
      Nat.mod_lt _ (List.length_pos.mpr hpool1)
    simp only [sampleGo, dif_pos hlt, List.length_cons, ih]

theorem sampleGo_mem (words : List Word) (r : Nat → Nat) :
    ∀ (k i : Nat) (pool : List Word), pool ⊆ words →
      ∀ w ∈ sampleGo words r k i pool, w ∈ words := by
  intro k
  induction k with
  | zero => intro i pool _ w hw; simp [sampleGo] at hw
  | succ k ih =>
    intro i pool hpool w hw
    simp only [sampleGo] at hw
    set pool1 := if pool.isEmpty then words else pool with hp1
    have hpool1 : pool1 ⊆ words := by
      rw [hp1]
      split
      · exact fun _ hx => hx
      · exact hpool
    by_cases hlt : r i % pool1.length < pool1.length
    · rw [dif_pos hlt] at hw
      rcases List.mem_cons.mp hw with rfl | hw'
      · exact hpool1 (List.getElem_mem _)
      · exact ih (i + 1) _ (fun x hx => hpool1 (List.eraseIdx_subset _ _ hx)) w hw'
    · rw [dif_neg hlt] at hw
      simp at hw

theorem sampleGo_subperm (words : List Word) (r : Nat → Nat) :
    ∀ (k i : Nat) (pool : List Word), k ≤ pool.length →
      List.Subperm (sampleGo words r k i pool) pool := by
  intro k
  induction k with
  | zero => intro i pool _; exact List.nil_subperm
  | succ k ih =>
    intro i pool hk
    have hpne : pool ≠ [] := by
      intro h
      rw [h] at hk
      simp at hk
    have hempty : pool.isEmpty = false := by simpa [List.isEmpty_iff] using hpne
    have hlt : r i % pool.length < pool.length :=
      Nat.mod_lt _ (List.length_pos.mpr hpne)
    have herase : k ≤ (pool.eraseIdx (r i % pool.length)).length := by
      rw [List.length_eraseIdx_of_lt hlt]
      omega
    have hcons : List.Subperm
        (pool[r i % pool.length] ::
          sampleGo words r k (i + 1) (pool.eraseIdx (r i % pool.length)))
        (pool[r i % pool.length] :: pool.eraseIdx (r i % pool.length)) :=
      (List.subperm_cons _).mpr (ih (i + 1) _ herase)
    simp only [sampleGo, hempty, Bool.false_eq_true, if_false]
    rw [dif_pos hlt]
    exact hcons.trans (perm_getElem_cons_eraseIdx pool _ hlt).symm.subperm

/-- C7: for a non-empty pool, the review sampler always produces exactly 5
words, each drawn from the pool (so a pool smaller than 5 is replenished and
still yields 5, with repetition); and whenever the pool holds at least 5 words
with pairwise-distinct identifiers, the 5 sampled positions carry
pairwise-distinct identifiers. -/
theorem sampler_round_spec (words : List Word) (r : Nat → Nat) (hne : words ≠ []) :
    (setupRoundWords words r).length = 5 ∧
    (∀ w ∈ setupRoundWords words r, w ∈ words) ∧
    ((words.map Word.id).Nodup → 5 ≤ words.length →
      ((setupRoundWords words r).map Word.id).Nodup) := by
  refine ⟨sampleGo_length words r hne 5 0 words,
    sampleGo_mem words r 5 0 words (fun _ hx => hx), ?_⟩
  intro hnd hlen
  obtain ⟨m, hm, hs⟩ := sampleGo_subperm words r 5 0 words hlen
  have hmn : (m.map Word.id).Nodup := (List.Nodup.sublist (hs.map Word.id)) hnd
  exact ((hm.map Word.id).nodup_iff).mp hmn

/-- Witness for C7 on the concrete 5-word pool. -/
theorem sampler_round_spec_witness :
    (mkRound5 ≠ [] ∧ (mkRound5.map Word.id).Nodup ∧ 5 ≤ mkRound5.length) ∧
    ((setupRoundWords mkRound5 (fun k => 2 * k)).length = 5 ∧
      ((setupRoundWords mkRound5 (fun k => 2 * k)).map Word.id).Nodup) :=
  ⟨⟨by decide, by decide, by decide⟩,
   ⟨(sampler_round_spec mkRound5 (fun k => 2 * k) (by decide)).1,
    (sampler_round_spec mkRound5 (fun k => 2 * k) (by decide)).2.2 (by decide) (by decide)⟩⟩

/-! ## Guard theorems -/

/-- C6: the mixed quiz renders the insufficient-pool notice (and no round)
exactly when the pool has fewer than 4 words, while the review session only
requires 1 word; a pool of exactly 3 items is refused by the quiz but accepted
by the review mode, whose every round still draws 5 slots (with repetition)
from the pool. -/
theorem pool_size_guards (words : List Word) :
    (quizScreen words = .session ↔ 4 ≤ words.length) ∧
    (quizScreen words = .insufficientPool ↔ words.length < 4) ∧
    (reviewScreen words = .session ↔ 1 ≤ words.length) ∧
    (words.length = 3 →
      quizScreen words = .insufficientPool ∧ reviewScreen words = .session) ∧
    (words ≠ [] → ∀ r : Nat → Nat, (setupRoundWords words r).length = 5) := by
  refine ⟨?_, ?_, ?_, fun h3 => ⟨?_, ?_⟩, fun hne r => sampleGo_length words r hne 5 0 words⟩
  · rw [quizScreen]
    split
    · rename_i h
      exact ⟨fun hEq => absurd hEq (by decide), fun h4 => absurd h4 (by omega)⟩
    · rename_i h
      exact ⟨fun _ => by omega, fun _ => rfl⟩
  · rw [quizScreen]
    split
    · rename_i h
      exact ⟨fun _ => h, fun _ => rfl⟩
    · rename_i h
      exact ⟨fun hEq => absurd hEq (by decide), fun h4 => absurd h4 h⟩
  · rw [reviewScreen]
    split
    · rename_i h
      exact ⟨fun hEq => absurd hEq (by decide), fun h1 => absurd h1 (by omega)⟩
    · rename_i h
      exact ⟨fun _ => by omega, fun _ => rfl⟩
  · simp [quizScreen, h3]
  · simp [reviewScreen, h3]

/-! ## Listening-engine lemmas -/

theorem mem_listeningWrongOptions {words : List Word} {tid : String} {x : Word}
    (hx : x ∈ listeningWrongOptions words tid) : x ∈ words ∧ x.id ≠ tid := by
  have h1 := List.mem_filter.mp hx
  exact ⟨h1.1, by simpa using h1.2⟩

theorem listeningWrongOptions_length {words : List Word} {t : Word}
    (hnd : (words.map Word.id).Nodup) (ht : t ∈ words) :
    (listeningWrongOptions words t.id).length = words.length - 1 := by
  induction words with
  | nil => cases ht
  | cons w ws ih =>
    rw [List.map_cons, List.nodup_cons] at hnd
    obtain ⟨hw, hnd'⟩ := hnd
    rcases List.mem_cons.mp ht with rfl | ht'
    · have hall : ∀ x ∈ ws, (x.id != t.id) = true := by
        intro x hx
        simp only [bne_iff_ne, ne_eq]
        intro hEq
        exact hw (hEq ▸ List.mem_map_of_mem Word.id hx)
      simp only [listeningWrongOptions, List.filter_cons]
      rw [if_neg (by simp), List.filter_eq_self.mpr hall]
      simp
    · have hne : w.id ≠ t.id := by
        intro hEq
        exact hw (hEq ▸ List.mem_map_of_mem Word.id ht')
      have hlen : 1 ≤ ws.length := List.length_pos.mpr (List.ne_nil_of_mem ht')
      simp only [listeningWrongOptions, List.filter_cons]
      rw [if_pos (by simp [hne]), List.length_cons]
      rw [listeningWrongOptions] at ih
      rw [ih hnd' ht']
      simp only [List.length_cons]
      omega

/-- C5: with a pool of at least 4 words with pairwise-distinct identifiers,
the listening round presents exactly four options, exactly one of which carries
the target's identifier (and the four option identifiers are pairwise
distinct); clicking the target sets `CORRECT` and schedules the auto-advance,
clicking any other option sets `WRONG` and leaves the round open for another
selection, and once the feedback is `CORRECT` every further click is
ignored. -/
theorem listening_round_spec (words : List Word) (target : Word)
    (shuffledWrong opts : List Word)
    (hnd : (words.map Word.id).Nodup) (ht : target ∈ words)
    (hlen : 4 ≤ words.length)
    (hw : shuffledWrong.Perm (listeningWrongOptions words target.id))
    (ho : opts.Perm (target :: shuffledWrong.take 3)) :
    opts.length = 4 ∧
    opts.countP (fun w => w.id == target.id) = 1 ∧
    (opts.map Word.id).Nodup ∧
    (∀ st : ListeningState, st.listeningFeedback ≠ .CORRECT →
      (listenClick target.id st target.id).listeningFeedback = .CORRECT ∧
      (listenClick target.id st target.id).advanceScheduled = true) ∧
    (∀ (st : ListeningState) (selId : String),
      st.listeningFeedback ≠ .CORRECT → selId ≠ target.id →
      (listenClick target.id st selId).listeningFeedback = .WRONG ∧
      (listenClick target.id st selId).listeningFeedback ≠ .CORRECT) ∧
    (∀ (st : ListeningState) (selId : String), st.listeningFeedback = .CORRECT →
      listenClick target.id st selId = st) := by
  have hwlen : shuffledWrong.length = words.length - 1 := by
    rw [hw.length_eq, listeningWrongOptions_length hnd ht]
  have htake : (shuffledWrong.take 3).length = 3 := by
    rw [List.length_take]
    omega
  have htakene : ∀ x ∈ shuffledWrong.take 3, x.id ≠ target.id := by
    intro x hx
    have hx1 : x ∈ shuffledWrong := List.take_subset 3 shuffledWrong hx
    exact (mem_listeningWrongOptions (hw.mem_iff.mp hx1)).2
  refine ⟨?_, ?_, ?_, ?_, ?_, ?_⟩
  · rw [ho.length_eq, List.length_cons, htake]
  · rw [ho.countP_eq, List.countP_cons_of_pos _ _ (by simp),
      List.countP_eq_zero.mpr ?_]
    intro a ha
    simp only [beq_iff_eq]
    exact htakene a ha
  · refine (ho.map Word.id).nodup_iff.mpr ?_
    rw [List.map_cons, List.nodup_cons]
    constructor
    · intro hmem
      obtain ⟨x, hx, hid⟩ := List.mem_map.mp hmem
      exact htakene x hx hid
    · have hfil : ((listeningWrongOptions words target.id).map Word.id).Nodup :=
        List.Nodup.sublist ((List.filter_sublist words).map Word.id) hnd
      have hsw : (shuffledWrong.map Word.id).Nodup :=
        ((hw.map Word.id).nodup_iff).mpr hfil
      exact List.Nodup.sublist ((List.take_sublist 3 shuffledWrong).map Word.id) hsw
  · intro st hfb
    simp [listenClick, checkListening, hfb]
  · intro st selId hfb hne
    simp [listenClick, checkListening, hfb, hne]
  · intro st selId hfb
    simp [listenClick, hfb]

/-- Witness for C5 on the concrete 4-word pool with the identity shuffles. -/
theorem listening_round_spec_witness :
    ((witWords4.map Word.id).Nodup ∧ witTarget ∈ witWords4 ∧ 4 ≤ witWords4.length ∧
      witWrong.Perm (listeningWrongOptions witWords4 witTarget.id) ∧
      witOpts.Perm (witTarget :: witWrong.take 3)) ∧
    witOpts.length = 4 ∧ witOpts.countP (fun w => w.id == witTarget.id) = 1 :=
  ⟨⟨by decide, by decide, by decide, List.Perm.refl _, List.Perm.refl _⟩,
   (listening_round_spec witWords4 witTarget witWrong witOpts (by decide) (by decide)
      (by decide) (List.Perm.refl _) (List.Perm.refl _)).1,
   (listening_round_spec witWords4 witTarget witWrong witOpts (by decide) (by decide)
      (by decide) (List.Perm.refl _) (List.Perm.refl _)).2.1⟩

/-- Witness for C6 on a concrete pool of 3 distinct items. -/
theorem pool_size_guards_witness :
    ((mkRound5.take 3).length = 3 ∧ mkRound5.take 3 ≠ []) ∧
    (quizScreen (mkRound5.take 3) = .insufficientPool ∧
      reviewScreen (mkRound5.take 3) = .session) ∧
    (setupRoundWords (mkRound5.take 3) (fun k => k)).length = 5 :=
  ⟨⟨by decide, by decide⟩,
   (pool_size_guards (mkRound5.take 3)).2.2.2.1 (by decide),
   (pool_size_guards (mkRound5.take 3)).2.2.2.2 (by decide) (fun k => k)⟩

end KanjiQuiz
